import Mathlib

/-!
Shallow embedding of the course-management repository's core logic:
the CRUD service (src/services/courseApi.ts), the provider store's
reorder operation (src/store/CourseContext.tsx), the list-derivation
pipeline of CourseListPage (filter / sort), the drag handler of
DraggableCourseList, and the form-level field validation rules of
CourseFormPage.  JavaScript runtime behaviour that the code leans on
(parseInt, Date parsing, NaN comparisons, Array.prototype.splice,
stable Array.prototype.sort) is modelled explicitly.
-/

namespace CourseMgmt

/-- Lifecycle status of a course, from the union type in types/course.ts. -/
inductive Status where
  | draft
  | published
  | archived
deriving DecidableEq

/-- Course record, from the Course interface in types/course.ts.
`description` and `publishedAt` are optional fields; `duration` is a
JS number holding integer minutes (modelled as Int). -/
structure Course where
  id : String
  title : String
  description : Option String
  duration : Int
  status : Status
  createdAt : String
  publishedAt : Option String
deriving DecidableEq

/-- Payload of createCourse, from the CourseFormData interface. -/
structure CourseFormData where
  title : String
  description : Option String
  duration : Int
deriving DecidableEq

/-- Payload of updateCourse: Partial CourseFormData plus an optional
status field.  A field that is `none` is absent from the object, so the
object spread in updateCourse leaves the stored value in place. -/
structure UpdateData where
  title : Option String := none
  description : Option String := none
  duration : Option Int := none
  status : Option Status := none
deriving DecidableEq

/-- Errors thrown by courseApi.ts: plain objects with a numeric status
and a message (400 validation, 403 edit-forbidden, 404 not-found). -/
structure ApiError where
  status : Nat
  message : String
deriving DecidableEq

/-! ### JS runtime helpers -/

/-- Leading-prefix test on character lists (JS String.prototype.includes,
step 1: does the haystack start with the needle). -/
def charsStart : List Char → List Char → Bool
  | [], _ => true
  | _ :: _, [] => false
  | n :: ns, h :: hs => n = h && charsStart ns hs

/-- Substring occurrence test on character lists. -/
def charsIncl : List Char → List Char → Bool
  | ns, [] => charsStart ns []
  | ns, h :: hs => charsStart ns (h :: hs) || charsIncl ns hs

/-- Model of JS `hay.includes(needle)`. -/
def strIncludes (hay needle : String) : Bool :=
  charsIncl needle.toList hay.toList

/-- Numeric value of a digit run. -/
def digitsVal (ds : List Char) : Int :=
  ds.foldl (fun acc c => acc * 10 + ((c.toNat : Int) - 48)) 0

/-- Model of JS `parseInt` on decimal text input: skip leading
whitespace, read an optional sign and the longest leading digit run;
`none` models the NaN result when no digit is found.  (The hexadecimal
0x prefix of full parseInt is not modelled; the inputs here are the
numeric text fields of the duration filter.) -/
def parseIntJS (s : String) : Option Int :=
  let cs := s.toList.dropWhile (fun c => c = ' ' || c = '\t' || c = '\n' || c = '\r')
  let signAndRest : Int × List Char :=
    match cs with
    | '-' :: rest => (-1, rest)
    | '+' :: rest => (1, rest)
    | _ => (1, cs)
  let ds := signAndRest.2.takeWhile Char.isDigit
  if ds.isEmpty then none else some (signAndRest.1 * digitsVal ds)

/-- Fixed-width digit-run reader used by the date parser. -/
def readNat : List Char → Nat → Nat → Option (Nat × List Char)
  | cs, 0, acc => some (acc, cs)
  | c :: rest, k + 1, acc =>
      if c.isDigit then readNat rest k (acc * 10 + (c.toNat - 48)) else none
  | [], _ + 1, _ => none

/-- Consumes one expected character. -/
def expectChar (c : Char) : List Char → Option (List Char)
  | x :: rest => if x = c then some rest else none
  | [] => none

/-- Days from the epoch 1970-01-01 for a civil date (the standard
era-based Gregorian calendar computation used to model JS Date). -/
def daysFromCivil (y : Int) (m d : Nat) : Int :=
  let yy : Int := y - (if m ≤ 2 then 1 else 0)
  let era : Int := (if 0 ≤ yy then yy else yy - 399) / 400
  let yoe : Int := yy - era * 400
  let mp : Nat := (m + 9) % 12
  let doy : Int := ((153 * mp + 2) / 5 + d - 1 : Nat)
  let doe : Int := yoe * 365 + yoe / 4 - yoe / 100 + doy
  era * 146097 + doe - 719468

/-- Time-of-day part of an ISO timestamp: HH:MM:SS with optional .mmm
and optional trailing Z, in milliseconds. -/
def parseTimePart (cs : List Char) : Option Int := do
  let (hh, cs) ← readNat cs 2 0
  let cs ← expectChar ':' cs
  let (mm, cs) ← readNat cs 2 0
  let cs ← expectChar ':' cs
  let (ss, cs) ← readNat cs 2 0
  let msRest : Nat × List Char ←
    match cs with
    | '.' :: rest => readNat rest 3 0
    | _ => some (0, cs)
  let tail ←
    match msRest.2 with
    | ['Z'] => some ([] : List Char)
    | [] => some ([] : List Char)
    | _ => none
  let _ := tail
  if hh ≤ 23 && mm ≤ 59 && ss ≤ 59 then
    some (((hh * 60 + mm) * 60 + ss) * 1000 + msRest.1 : Int)
  else none

/-- Model of `new Date(s).getTime()` for the ISO-8601 UTC strings the
app produces (YYYY-MM-DD date inputs and toISOString timestamps);
`none` models an Invalid Date, whose getTime is NaN. -/
def getTimeJS (s : String) : Option Int := do
  let cs := s.toList
  let (y, cs) ← readNat cs 4 0
  let cs ← expectChar '-' cs
  let (mo, cs) ← readNat cs 2 0
  let cs ← expectChar '-' cs
  let (d, cs) ← readNat cs 2 0
  if 1 ≤ mo && mo ≤ 12 && 1 ≤ d && d ≤ 31 then
    let dayMs : Int := daysFromCivil (y : Int) mo d * 86400000
    match cs with
    | [] => some dayMs
    | 'T' :: rest => do
        let t ← parseTimePart rest
        some (dayMs + t)
    | _ => none
  else none

/-! ### courseApi.ts -/

/-- Model of `createCourse` (courseApi.ts lines 28-43): reject when the
title is falsy (empty) or duration ≤ 0, otherwise push a new draft
course with a stamped createdAt and no publishedAt.  The generated id
and the current time are passed in explicitly. -/
def createCourse (data : CourseFormData) (newId now : String) (s : List Course) :
    Except ApiError (Course × List Course) :=
  if data.title = "" || data.duration ≤ 0 then
    .error ⟨400, "Invalid data"⟩
  else
    let newCourse : Course :=
      { id := newId, title := data.title, description := data.description,
        duration := data.duration, status := .draft, createdAt := now,
        publishedAt := none }
    .ok (newCourse, s ++ [newCourse])

/-- Object spread `{ ...course, ...data }` of updateCourse line 51:
fields present in the payload override the stored ones. -/
def mergeCourse (c : Course) (d : UpdateData) : Course :=
  { c with
    title := d.title.getD c.title
    description := match d.description with | some v => some v | none => c.description
    duration := d.duration.getD c.duration
    status := d.status.getD c.status }

/-- Conditional publishedAt stamp of updateCourse lines 52-54, applied
to the merged record. -/
def stampPublished (d : UpdateData) (now : String) (m : Course) : Course :=
  if d.status = some .published && m.publishedAt = none then
    { m with publishedAt := some now }
  else m

/-- Model of `updateCourse` (courseApi.ts lines 45-57): findIndex on
id, 404 when absent, 403 on an archived target, otherwise merge the
payload, stamp publishedAt when first transitioning into published,
and write the record back at the same index. -/
def updateCourse (id : String) (d : UpdateData) (now : String) (s : List Course) :
    Except ApiError (Course × List Course) :=
  if h : s.findIdx (fun c => c.id = id) < s.length then
    let c := s.get ⟨s.findIdx (fun c => c.id = id), h⟩
    if c.status = .archived then
      .error ⟨403, "Cannot edit archived course"⟩
    else
      let m := stampPublished d now (mergeCourse c d)
      .ok (m, s.set (s.findIdx (fun c => c.id = id)) m)
  else
    .error ⟨404, "Course not found"⟩

/-- Model of `deleteCourse` (courseApi.ts lines 59-66): findIndex on
id, 404 when absent, otherwise splice the record out. -/
def deleteCourse (id : String) (s : List Course) : Except ApiError (List Course) :=
  if s.findIdx (fun c => c.id = id) < s.length then
    .ok (s.eraseIdx (s.findIdx (fun c => c.id = id)))
  else
    .error ⟨404, "Course not found"⟩

/-! ### Operation traces -/

/-- One write operation against the stored collection. -/
inductive Op where
  | create (data : CourseFormData) (newId now : String)
  | update (id : String) (data : UpdateData) (now : String)
  | delete (id : String)

/-- Effect of one operation on the stored collection.  A failed call
throws before saveCoursesToStorage runs, so it leaves the collection
unchanged. -/
def step (s : List Course) : Op → List Course
  | .create data newId now =>
      match createCourse data newId now s with
      | .ok (_, s1) => s1
      | .error _ => s
  | .update id data now =>
      match updateCourse id data now s with
      | .ok (_, s1) => s1
      | .error _ => s
  | .delete id =>
      match deleteCourse id s with
      | .ok s1 => s1
      | .error _ => s

/-- Collection reached from empty storage by a sequence of operations. -/
def run (ops : List Op) : List Course := ops.foldl step []

/-- Ids of the currently published courses. -/
def publishedIds (s : List Course) : List String :=
  (s.filter (fun c => c.status = .published)).map (fun c => c.id)

/-- Step instrumented with a history of every id that has been observed
in the published state after some operation. -/
def stepH (sh : List Course × List String) (op : Op) : List Course × List String :=
  let s1 := step sh.1 op
  (s1, sh.2 ++ publishedIds s1)

/-- Instrumented run from empty storage and empty history. -/
def runH (ops : List Op) : List Course × List String := ops.foldl stepH ([], [])

/-- Ids consumed by the create operations of a trace. -/
def createIds : List Op → List String
  | [] => []
  | .create _ newId _ :: ops => newId :: createIds ops
  | .update _ _ _ :: ops => createIds ops
  | .delete _ :: ops => createIds ops

/-! ### Course List Engine (CourseListPage.tsx, filtered useMemo) -/

/-- Status value as the string stored in the TS union type. -/
def statusStr : Status → String
  | .draft => "draft"
  | .published => "published"
  | .archived => "archived"

/-- FilterState of CourseListPage (all the fields the list derivation
reads; the TS fields are plain strings or string unions). -/
structure FilterState where
  status : String
  search : String
  sortBy : String
  sortOrder : String
  view : String
  dateStart : String
  dateEnd : String
  durationMin : String
  durationMax : String
deriving DecidableEq

/-- JS `a >= b` on Date values: NaN on either side compares false. -/
def jsGE : Option Int → Option Int → Bool
  | some x, some y => decide (y ≤ x)
  | _, _ => false

/-- JS `a <= b` on Date values: NaN on either side compares false. -/
def jsLE : Option Int → Option Int → Bool
  | some x, some y => decide (x ≤ y)
  | _, _ => false

/-- JS `duration >= bound` where the bound is a parseInt result; a NaN
bound compares false. -/
def jsGEInt (d : Int) : Option Int → Bool
  | some m => decide (m ≤ d)
  | none => false

/-- JS `duration <= bound` where the bound is a parseInt result; a NaN
bound compares false. -/
def jsLEInt (d : Int) : Option Int → Bool
  | some m => decide (d ≤ m)
  | none => false

/-- Model of `endDate.setHours(23, 59, 59, 999)` on a UTC midnight
value: move the instant to the last millisecond of that day. -/
def endOfDayJS (ms : Int) : Int := ms - ms % 86400000 + 86399999

/-- Sign model of `a.localeCompare(b)` under the default locale order. -/
def strCmp (a b : String) : Int :=
  if a = b then 0 else if a < b then -1 else 1

/-- Difference of two getTime values inside the sort comparator.  When
either Date is invalid the subtraction is NaN and the ECMAScript sort
treats a NaN comparator result as 0. -/
def jsSubTime : Option Int → Option Int → Int
  | some x, some y => x - y
  | _, _ => 0

/-- Comparator built in the sort step (CourseListPage lines 459-465):
chosen by sortBy, negated for descending order. -/
def sortCmp (f : FilterState) (a b : Course) : Int :=
  let cmp : Int :=
    if f.sortBy = "title" then strCmp a.title b.title
    else if f.sortBy = "createdAt" then
      jsSubTime (getTimeJS a.createdAt) (getTimeJS b.createdAt)
    else if f.sortBy = "duration" then a.duration - b.duration
    else 0
  if f.sortOrder = "asc" then cmp else -cmp

/-- Stable insertion used to model the (ES2019, specification-mandated)
stable Array.prototype.sort: an incoming element goes in front of the
first element it does not compare after. -/
def insertCmp (cmp : α → α → Int) (x : α) : List α → List α
  | [] => [x]
  | y :: ys => if cmp x y ≤ 0 then x :: y :: ys else y :: insertCmp cmp x ys

/-- Stable sort by a JS comparator (for a consistent comparator every
stable sort produces this unique output). -/
def sortJS (cmp : α → α → Int) : List α → List α
  | [] => []
  | x :: xs => insertCmp cmp x (sortJS cmp xs)

/-- Model of the `filtered` useMemo of CourseListPage (lines 431-469):
status, search, date-range and duration-range filters applied in
sequence, then the comparator sort unless the view is drag mode. -/
def filteredCourses (f : FilterState) (courses : List Course) : List Course :=
  let l1 := if f.status ≠ "all" then
      courses.filter (fun c => statusStr c.status = f.status) else courses
  let l2 := if f.search ≠ "" then
      l1.filter (fun c => strIncludes c.title.toLower f.search.toLower) else l1
  let l3 := if f.dateStart ≠ "" then
      l2.filter (fun c => jsGE (getTimeJS c.createdAt) (getTimeJS f.dateStart)) else l2
  let l4 := if f.dateEnd ≠ "" then
      l3.filter (fun c =>
        jsLE (getTimeJS c.createdAt) ((getTimeJS f.dateEnd).map endOfDayJS)) else l3
  let l5 := if f.durationMin ≠ "" then
      l4.filter (fun c => jsGEInt c.duration (parseIntJS f.durationMin)) else l4
  let l6 := if f.durationMax ≠ "" then
      l5.filter (fun c => jsLEInt c.duration (parseIntJS f.durationMax)) else l5
  if f.view ≠ "drag" then sortJS (sortCmp f) l6 else l6

/-! ### Reorder (CourseContext.tsx lines 82-89 and DraggableCourseList) -/

/-- Start-index normalisation of Array.prototype.splice: negative
indices count from the end, then the result is clamped into [0, len]. -/
def clampStart (i : Int) (len : Nat) : Nat :=
  if i < 0 then (len + i).toNat else min i.toNat len

/-- Model of `array.splice(start, 1)`: the array without the removed
element, and the removed element (undefined when nothing was removed). -/
def spliceRemove1 (l : List α) (start : Int) : List α × Option α :=
  let a := clampStart start l.length
  (l.take a ++ l.drop (a + 1), l.get? a)

/-- Model of `array.splice(start, 0, x)`: insert x at the normalised
start position. -/
def spliceInsert (l : List α) (start : Int) (x : α) : List α :=
  let a := clampStart start l.length
  l.take a ++ x :: l.drop a

/-- Model of the context `reorder` (CourseContext lines 82-89).  The
element slot inserted back is `Option Course` because `const [removed]`
is undefined when the first splice removed nothing, and that undefined
value is then spliced into the array. -/
def reorderJS (l : List Course) (startIndex endIndex : Int) : List (Option Course) :=
  let r := spliceRemove1 l startIndex
  spliceInsert (r.1.map some) endIndex r.2

/-- Model of handleDragEnd (DraggableCourseList lines 173-189) composed
with the page wiring: the drag view renders the FILTERED list, so the
indices are positions in `filteredCourses f courses`, but the context
reorder they are passed to splices the full authoritative collection. -/
def dragReorder (f : FilterState) (courses : List Course) (activeId overId : String) :
    List (Option Course) :=
  if activeId ≠ overId then
    let visible := filteredCourses f courses
    let oldIndex := visible.findIdx (fun c => c.id = activeId)
    let newIndex := visible.findIdx (fun c => c.id = overId)
    if oldIndex < visible.length && newIndex < visible.length then
      reorderJS courses oldIndex newIndex
    else courses.map some
  else courses.map some

/-! ### Form-level field validation (CourseFormPage.tsx register rules) -/

/-- Per-field error for the title input: required, max 100 characters
(CourseFormPage line 136). -/
def titleFieldError (t : String) : Option String :=
  if t = "" then some "Title is required"
  else if 100 < t.length then some "Max 100 characters"
  else none

/-- Per-field error for the description input: max 500 characters
(CourseFormPage line 147). -/
def descriptionFieldError (d : String) : Option String :=
  if 500 < d.length then some "Max 500 characters" else none

/-- Per-field error for the duration input registered with
valueAsNumber: a non-numeric value (NaN, modelled none) fails required,
a value below 1 fails the min rule (CourseFormPage lines 175-179). -/
def durationFieldError : Option Int → Option String
  | none => some "Duration is required"
  | some v => if v < 1 then some "Must be greater than 0" else none

/-- The react-hook-form handleSubmit gate: onSubmit (and hence the
update/create call) runs only when every field validates. -/
def formSubmitAllowed (title description : String) (duration : Option Int) : Bool :=
  (titleFieldError title).isNone && (descriptionFieldError description).isNone &&
    (durationFieldError duration).isNone

example : parseIntJS "abc" = none := by decide
example : parseIntJS "150" = some 150 := by decide
example : parseIntJS "  -42x" = some (-42) := by decide
example : getTimeJS "2024-01-01" = some 1704067200000 := by decide
example : getTimeJS "2024-01-01T23:00:00Z" = some 1704150000000 := by decide
example : strIncludes "react fundamentals" "react" = true := by decide
example : strIncludes "abc" "" = true := by decide

/-! ### Helper lemmas about the CRUD operations -/

lemma id_injective_of_nodup {s : List Course} (hnd : (s.map (fun c => c.id)).Nodup)
    {a b : Course} (ha : a ∈ s) (hb : b ∈ s) (hid : a.id = b.id) : a = b :=
  List.inj_on_of_nodup_map hnd ha hb hid

lemma findIdx_id_lt {s : List Course} {c : Course} (hc : c ∈ s) :
    s.findIdx (fun x => x.id = c.id) < s.length :=
  List.findIdx_lt_length_of_exists ⟨c, hc, by simp⟩

lemma findIdx_id_get {s : List Course} {id : String}
    (h : s.findIdx (fun c => c.id = id) < s.length) :
    (s.get ⟨s.findIdx (fun c => c.id = id), h⟩).id = id :=
  of_decide_eq_true (List.findIdx_getElem (w := h))

lemma mergeCourse_id (c : Course) (d : UpdateData) : (mergeCourse c d).id = c.id := rfl

lemma mergeCourse_createdAt (c : Course) (d : UpdateData) :
    (mergeCourse c d).createdAt = c.createdAt := rfl

lemma mergeCourse_publishedAt (c : Course) (d : UpdateData) :
    (mergeCourse c d).publishedAt = c.publishedAt := rfl

lemma stampPublished_id (d : UpdateData) (now : String) (m : Course) :
    (stampPublished d now m).id = m.id := by
  unfold stampPublished; split <;> rfl

lemma stampPublished_createdAt (d : UpdateData) (now : String) (m : Course) :
    (stampPublished d now m).createdAt = m.createdAt := by
  unfold stampPublished; split <;> rfl

lemma stampPublished_status (d : UpdateData) (now : String) (m : Course) :
    (stampPublished d now m).status = m.status := by
  unfold stampPublished; split <;> rfl

lemma stampPublished_title (d : UpdateData) (now : String) (m : Course) :
    (stampPublished d now m).title = m.title := by
  unfold stampPublished; split <;> rfl

lemma stampPublished_description (d : UpdateData) (now : String) (m : Course) :
    (stampPublished d now m).description = m.description := by
  unfold stampPublished; split <;> rfl

lemma stampPublished_duration (d : UpdateData) (now : String) (m : Course) :
    (stampPublished d now m).duration = m.duration := by
  unfold stampPublished; split <;> rfl

lemma stampPublished_publishedAt (d : UpdateData) (now : String) (m : Course) :
    (stampPublished d now m).publishedAt = m.publishedAt ∨
      (m.publishedAt = none ∧ d.status = some .published ∧
        (stampPublished d now m).publishedAt = some now) := by
  unfold stampPublished
  split
  case isTrue h =>
    right
    have h1 : d.status = some Status.published := of_decide_eq_true (Bool.and_elim_left h)
    have h2 : m.publishedAt = none := of_decide_eq_true (Bool.and_elim_right h)
    exact ⟨h2, h1, rfl⟩
  case isFalse h => left; rfl

lemma stampPublished_publishedAt_of_some (d : UpdateData) (now : String) (m : Course)
    (h : m.publishedAt ≠ none) : (stampPublished d now m).publishedAt = m.publishedAt := by
  unfold stampPublished
  split
  case isTrue hg =>
    exact absurd (of_decide_eq_true (Bool.and_elim_right hg)) h
  case isFalse hg => rfl

lemma stampPublished_publishedAt_of_pub (d : UpdateData) (now : String) (m : Course)
    (h1 : d.status = some .published) (h2 : m.publishedAt = none) :
    (stampPublished d now m).publishedAt = some now := by
  unfold stampPublished
  rw [if_pos (by simp [h1, h2])]

/-- Shape of every successful updateCourse call: the target is the
first course whose id matches, it is not archived, the result record is
the merged-and-stamped target, and the new collection is the old one
with that single slot replaced. -/
lemma updateCourse_ok_elim {id : String} {d : UpdateData} {now : String}
    {s : List Course} {m : Course} {s' : List Course}
    (h : updateCourse id d now s = .ok (m, s')) :
    ∃ hlt : s.findIdx (fun c => c.id = id) < s.length,
      (s.get ⟨s.findIdx (fun c => c.id = id), hlt⟩).status ≠ .archived ∧
      (s.get ⟨s.findIdx (fun c => c.id = id), hlt⟩).id = id ∧
      m = stampPublished d now (mergeCourse (s.get ⟨s.findIdx (fun c => c.id = id), hlt⟩) d) ∧
      s' = s.set (s.findIdx (fun c => c.id = id)) m := by
  unfold updateCourse at h
  split at h
  case isTrue hlt =>
    simp only at h
    split at h
    case isTrue harch => exact absurd h (by simp)
    case isFalse harch =>
      have hm : stampPublished d now
          (mergeCourse (s.get ⟨s.findIdx (fun c => c.id = id), hlt⟩) d) = m ∧
          s.set (s.findIdx (fun c => c.id = id))
            (stampPublished d now
              (mergeCourse (s.get ⟨s.findIdx (fun c => c.id = id), hlt⟩) d)) = s' := by
        have := h
        simp only [Except.ok.injEq, Prod.mk.injEq] at this
        exact this
      exact ⟨hlt, harch, findIdx_id_get hlt, hm.1.symm, by rw [← hm.2, hm.1]⟩
  case isFalse hlt => exact absurd h (by simp)

lemma step_update_of_error {id : String} {d : UpdateData} {now : String}
    {s : List Course} {e : ApiError} (h : updateCourse id d now s = .error e) :
    step s (.update id d now) = s := by
  simp only [step]; rw [h]

lemma step_update_of_ok {id : String} {d : UpdateData} {now : String}
    {s s' : List Course} {m : Course} (h : updateCourse id d now s = .ok (m, s')) :
    step s (.update id d now) = s' := by
  simp only [step]; rw [h]

/-- C1: an update aimed at an archived course fails with the
edit-forbidden error (HTTP-style 403, message "Cannot edit archived
course") no matter what field data it carries, and the stored
collection is left unchanged by the failed call. -/
theorem archived_update_forbidden (s : List Course) (c : Course) (d : UpdateData)
    (now : String) (hnd : (s.map (fun c => c.id)).Nodup) (hc : c ∈ s)
    (ha : c.status = .archived) :
    updateCourse c.id d now s = .error ⟨403, "Cannot edit archived course"⟩ ∧
    step s (.update c.id d now) = s := by
  have hlt : s.findIdx (fun x => x.id = c.id) < s.length := findIdx_id_lt hc
  have hgot : s.get ⟨s.findIdx (fun x => x.id = c.id), hlt⟩ = c :=
    id_injective_of_nodup hnd (List.get_mem s _ hlt) hc (findIdx_id_get hlt)
  have herr : updateCourse c.id d now s = .error ⟨403, "Cannot edit archived course"⟩ := by
    unfold updateCourse
    rw [dif_pos hlt]
    simp only [List.get_eq_getElem] at hgot
    simp [hgot, ha]
  exact ⟨herr, step_update_of_error herr⟩

/-- Witness for C1 at a concrete archived course. -/
theorem archived_update_forbidden_witness :
    updateCourse "a" { title := some "New" } "t1"
        [⟨"a", "A", none, 60, .archived, "t0", some "tp"⟩] =
      .error ⟨403, "Cannot edit archived course"⟩ ∧
    step [⟨"a", "A", none, 60, .archived, "t0", some "tp"⟩]
        (.update "a" { title := some "New" } "t1") =
      [⟨"a", "A", none, 60, .archived, "t0", some "tp"⟩] :=
  archived_update_forbidden [⟨"a", "A", none, 60, .archived, "t0", some "tp"⟩]
    ⟨"a", "A", none, 60, .archived, "t0", some "tp"⟩ { title := some "New" } "t1"
    (by decide) (by decide) (by decide)

/-- C9: createCourse fails with the 400 validation error exactly when
the submitted title is empty or the duration is ≤ 0; on success it
returns a draft course with the stamped creation time and no
publishedAt, appended after the previously stored courses, which are
all unchanged. -/
theorem create_validates_and_appends (data : CourseFormData) (newId now : String)
    (s : List Course) :
    (data.title = "" ∨ data.duration ≤ 0 →
      createCourse data newId now s = .error ⟨400, "Invalid data"⟩) ∧
    (¬(data.title = "" ∨ data.duration ≤ 0) →
      createCourse data newId now s =
        .ok (⟨newId, data.title, data.description, data.duration, .draft, now, none⟩,
          s ++ [⟨newId, data.title, data.description, data.duration, .draft, now, none⟩])) := by
  constructor
  · intro h
    unfold createCourse
    rw [if_pos]
    rcases h with h | h
    · simp [h]
    · simp [h]
  · intro h
    push_neg at h
    unfold createCourse
    split
    case isTrue hcond =>
      exfalso
      simp only [Bool.or_eq_true, decide_eq_true_eq] at hcond
      rcases hcond with hc | hc
      · exact h.1 hc
      · exact absurd h.2 (not_lt.mpr hc)
    case isFalse hcond => rfl

/-- Witness for C9: the error branch at an empty title and the success
branch at a valid payload. -/
theorem create_validates_and_appends_witness :
    createCourse ⟨"", none, 60⟩ "i1" "t0" [] = .error ⟨400, "Invalid data"⟩ ∧
    createCourse ⟨"T", none, 60⟩ "i1" "t0" [] =
      .ok (⟨"i1", "T", none, 60, .draft, "t0", none⟩,
        [⟨"i1", "T", none, 60, .draft, "t0", none⟩]) :=
  ⟨(create_validates_and_appends ⟨"", none, 60⟩ "i1" "t0" []).1 (Or.inl rfl),
   (create_validates_and_appends ⟨"T", none, 60⟩ "i1" "t0" []).2 (by decide)⟩

/-- C10: a successful update is frame-preserving.  The collection keeps
its length and relative order, every slot other than the target is
unchanged, and on the target only payload fields (plus possibly a
freshly stamped publishedAt) differ: id and createdAt are carried over,
and every absent payload field keeps its stored value. -/
theorem update_frame (id : String) (d : UpdateData) (now : String)
    (s : List Course) (m : Course) (s' : List Course)
    (h : updateCourse id d now s = .ok (m, s')) :
    s'.length = s.length ∧
    ∃ idx c, s.get? idx = some c ∧ s'.get? idx = some m ∧
      (∀ j, j ≠ idx → s'.get? j = s.get? j) ∧
      c.id = id ∧ m.id = c.id ∧ m.createdAt = c.createdAt ∧
      (d.title = none → m.title = c.title) ∧
      (d.description = none → m.description = c.description) ∧
      (d.duration = none → m.duration = c.duration) ∧
      (d.status = none → m.status = c.status) ∧
      (m.publishedAt = c.publishedAt ∨
        (c.publishedAt = none ∧ d.status = some .published ∧ m.publishedAt = some now)) := by
  obtain ⟨hlt, harch, hid, hm, hs'⟩ := updateCourse_ok_elim h
  refine ⟨by rw [hs', List.length_set], s.findIdx (fun c => c.id = id),
    s.get ⟨s.findIdx (fun c => c.id = id), hlt⟩, ?_, ?_, ?_, hid, ?_, ?_, ?_, ?_, ?_, ?_, ?_⟩
  · simp [List.get?_eq_getElem?, List.getElem?_eq_getElem hlt]
  · rw [hs']
    simp [List.get?_eq_getElem?, List.getElem?_set_self hlt]
  · intro j hj
    rw [hs']
    simp [List.get?_eq_getElem?, List.getElem?_set_ne (Ne.symm hj)]
  · rw [hm, stampPublished_id, mergeCourse_id]
  · rw [hm, stampPublished_createdAt, mergeCourse_createdAt]
  · intro ht
    rw [hm, stampPublished_title]
    simp [mergeCourse, ht]
  · intro hd
    rw [hm, stampPublished_description]
    simp [mergeCourse, hd]
  · intro hd
    rw [hm, stampPublished_duration]
    simp [mergeCourse, hd]
  · intro hstat
    rw [hm, stampPublished_status]
    simp [mergeCourse, hstat]
  · rw [hm]
    rcases stampPublished_publishedAt d now
        (mergeCourse (s.get ⟨s.findIdx (fun c => c.id = id), hlt⟩) d) with hcase | hcase
    · left; rw [hcase, mergeCourse_publishedAt]
    · right
      obtain ⟨h1, h2, h3⟩ := hcase
      rw [mergeCourse_publishedAt] at h1
      exact ⟨h1, h2, h3⟩

/-- Sample stored courses for concrete witnesses. -/
def wA : Course := ⟨"a", "A", none, 60, .draft, "t0", none⟩

def wB : Course := ⟨"b", "B", none, 70, .draft, "t0", none⟩

def wB2 : Course := ⟨"b", "B", none, 90, .draft, "t0", none⟩

/-- Witness for C10 at a concrete successful update. -/
theorem update_frame_witness :
    updateCourse "b" { duration := some 90 } "t1" [wA, wB] = .ok (wB2, [wA, wB2]) ∧
    ([wA, wB2] : List Course).length = ([wA, wB] : List Course).length := by
  have h : updateCourse "b" { duration := some 90 } "t1" [wA, wB] = .ok (wB2, [wA, wB2]) := by
    rfl
  exact ⟨h, (update_frame "b" { duration := some 90 } "t1" [wA, wB] wB2 [wA, wB2] h).1⟩

/-! ### Trace invariants for publishedAt and the state machine -/

/-- Ids of the stored courses. -/
def idsOf (s : List Course) : List String := s.map (fun c => c.id)

/-- Create ids contributed by a single operation. -/
def createIdOp : Op → List String
  | .create _ newId _ => [newId]
  | .update _ _ _ => []
  | .delete _ => []

lemma createIds_cons (op : Op) (ops : List Op) :
    createIds (op :: ops) = createIdOp op ++ createIds ops := by
  cases op <;> rfl

lemma mem_publishedIds {s : List Course} {i : String} :
    i ∈ publishedIds s ↔ ∃ c, c ∈ s ∧ c.status = .published ∧ c.id = i := by
  simp only [publishedIds, List.mem_map, List.mem_filter, decide_eq_true_eq]
  constructor
  · rintro ⟨c, ⟨hc, hp⟩, hid⟩
    exact ⟨c, hc, hp, hid⟩
  · rintro ⟨c, hc, hp, hid⟩
    exact ⟨c, ⟨hc, hp⟩, hid⟩

lemma publishedIds_subset_ids {s : List Course} {i : String}
    (h : i ∈ publishedIds s) : i ∈ idsOf s := by
  obtain ⟨c, hc, _, hid⟩ := mem_publishedIds.mp h
  exact List.mem_map.mpr ⟨c, hc, hid⟩

lemma mergeCourse_status (c : Course) (d : UpdateData) :
    (mergeCourse c d).status = d.status.getD c.status := rfl

lemma stampPublished_of_not_pub (d : UpdateData) (now : String) (m : Course)
    (h : d.status ≠ some .published) : stampPublished d now m = m := by
  unfold stampPublished
  rw [if_neg (by simp [h])]

lemma set_get_self (l : List α) (i : Nat) (h : i < l.length) :
    l.set i (l.get ⟨i, h⟩) = l := by
  apply List.ext_getElem?
  intro n
  by_cases hn : i = n
  · subst hn
    rw [List.getElem?_set_self h, List.get_eq_getElem, List.getElem?_eq_getElem h]
  · exact List.getElem?_set_ne hn

/-- Invariant carried along instrumented traces: stored ids are
pairwise distinct, a course carries a publishedAt exactly when its id
has been observed published, and every currently published course
carries a publishedAt. -/
def PubInv (s : List Course) (hist : List String) : Prop :=
  (idsOf s).Nodup ∧
  ∀ c ∈ s, (c.publishedAt.isSome ↔ c.id ∈ hist) ∧
    (c.status = .published → c.publishedAt.isSome)

/-- The invariant survives passing to a duplicate-free sub-collection
while recording its published ids. -/
lemma pubInv_of_subset {s : List Course} {hist : List String} (hInv : PubInv s hist)
    {t : List Course} (hsub : ∀ c ∈ t, c ∈ s) (hndt : (idsOf t).Nodup) :
    PubInv t (hist ++ publishedIds t) := by
  refine ⟨hndt, fun c hc => ?_⟩
  have hcs := hsub c hc
  obtain ⟨hiff, hp2⟩ := hInv.2 c hcs
  refine ⟨⟨fun hs => List.mem_append_left _ (hiff.mp hs), fun hmem => ?_⟩, hp2⟩
  rcases List.mem_append.mp hmem with hh | hpub
  · exact hiff.mpr hh
  · obtain ⟨p, hpt, hppub, hpid⟩ := mem_publishedIds.mp hpub
    have hpc : p = c := id_injective_of_nodup hInv.1 (hsub p hpt) hcs hpid
    exact hp2 (hpc ▸ hppub)

lemma step_create_eq (data : CourseFormData) (newId now : String) (s : List Course) :
    step s (.create data newId now) =
      if data.title = "" || data.duration ≤ 0 then s
      else s ++ [⟨newId, data.title, data.description, data.duration, .draft, now, none⟩] := by
  simp only [step, createCourse]
  cases hb : (decide (data.title = "") || decide (data.duration ≤ 0)) <;> simp [hb]

lemma step_delete_eq (id : String) (s : List Course) :
    step s (.delete id) =
      if s.findIdx (fun c => c.id = id) < s.length then
        s.eraseIdx (s.findIdx (fun c => c.id = id))
      else s := by
  simp only [step, deleteCourse]
  by_cases hb : s.findIdx (fun c => c.id = id) < s.length <;> simp [hb]

lemma idsOf_update_ok {id : String} {d : UpdateData} {now : String}
    {s s' : List Course} {m : Course} (h : updateCourse id d now s = .ok (m, s')) :
    idsOf s' = idsOf s := by
  obtain ⟨hlt, _, _, hm, hs'⟩ := updateCourse_ok_elim h
  have hmid : m.id = (s.get ⟨s.findIdx (fun c => c.id = id), hlt⟩).id := by
    rw [hm, stampPublished_id, mergeCourse_id]
  rw [hs']
  unfold idsOf
  rw [List.map_set, hmid]
  have := set_get_self (l := s.map (fun c => c.id)) (i := s.findIdx (fun c => c.id = id))
    (h := by simpa using hlt)
  simpa using this

lemma pubInv_step_create (data : CourseFormData) (newId now : String)
    (s : List Course) (hist : List String) (hInv : PubInv s hist)
    (hfr : newId ∉ hist ∧ newId ∉ idsOf s) :
    PubInv (step s (.create data newId now))
      (hist ++ publishedIds (step s (.create data newId now))) := by
  rw [step_create_eq]
  by_cases hb : (data.title = "" || data.duration ≤ 0 : Bool) = true
  · rw [if_pos hb]
    exact pubInv_of_subset hInv (fun c hc => hc) hInv.1
  · rw [if_neg hb]
    have hids : idsOf (s ++ [⟨newId, data.title, data.description, data.duration,
        .draft, now, none⟩]) = idsOf s ++ [newId] := by simp [idsOf]
    have hpub : publishedIds (s ++ [⟨newId, data.title, data.description, data.duration,
        .draft, now, none⟩]) = publishedIds s := by
      simp [publishedIds, List.filter_append]
    have hnd' : (idsOf (s ++ [⟨newId, data.title, data.description, data.duration,
        .draft, now, none⟩])).Nodup := by
      rw [hids]
      exact hInv.1.append (List.nodup_singleton _)
        (fun a ha hb => hfr.2 (List.mem_singleton.mp hb ▸ ha))
    refine ⟨hnd', fun c hc => ?_⟩
    rw [hpub]
    rcases List.mem_append.mp hc with hcs | hcnew
    · obtain ⟨hiff, hp2⟩ := hInv.2 c hcs
      refine ⟨⟨fun hs1 => List.mem_append_left _ (hiff.mp hs1), fun hmem => ?_⟩, hp2⟩
      rcases List.mem_append.mp hmem with hh | hpub1
      · exact hiff.mpr hh
      · obtain ⟨p, hpt, hppub, hpid⟩ := mem_publishedIds.mp hpub1
        have hpc : p = c := id_injective_of_nodup hInv.1 hpt hcs hpid
        exact hp2 (hpc ▸ hppub)
    · have hceq : c = ⟨newId, data.title, data.description, data.duration,
          .draft, now, none⟩ := List.mem_singleton.mp hcnew
      subst hceq
      refine ⟨⟨fun hs1 => absurd hs1 (by simp), fun hmem => ?_⟩, fun hp => by simp at hp⟩
      exfalso
      rcases List.mem_append.mp hmem with hh | hpub1
      · exact hfr.1 hh
      · exact hfr.2 (publishedIds_subset_ids hpub1)

lemma pubInv_step_update (id : String) (d : UpdateData) (now : String)
    (s : List Course) (hist : List String) (hInv : PubInv s hist) :
    PubInv (step s (.update id d now))
      (hist ++ publishedIds (step s (.update id d now))) := by
  cases h : updateCourse id d now s with
  | error e =>
    rw [step_update_of_error h]
    exact pubInv_of_subset hInv (fun c hc => hc) hInv.1
  | ok p =>
    obtain ⟨m, s1⟩ := p
    rw [step_update_of_ok h]
    obtain ⟨hlt, harch, hidt, hm, hs1⟩ := updateCourse_ok_elim h
    have hc₀s : s.get ⟨s.findIdx (fun c => c.id = id), hlt⟩ ∈ s := List.get_mem s _ hlt
    obtain ⟨hiff₀, hp2₀⟩ := hInv.2 _ hc₀s
    have hmid : m.id = (s.get ⟨s.findIdx (fun c => c.id = id), hlt⟩).id := by
      rw [hm, stampPublished_id, mergeCourse_id]
    have hnd' : (idsOf s1).Nodup := by rw [idsOf_update_ok h]; exact hInv.1
    have hmem_m : m ∈ s1 := by
      rw [hs1]
      exact List.mem_set s _ hlt m
    -- key facts about the merged-and-stamped record
    have factC : (s.get ⟨s.findIdx (fun c => c.id = id), hlt⟩).publishedAt.isSome →
        m.publishedAt = (s.get ⟨s.findIdx (fun c => c.id = id), hlt⟩).publishedAt := by
      intro hsome
      rw [hm, stampPublished_publishedAt_of_some _ _ _
        (by rw [mergeCourse_publishedAt]; exact Option.isSome_iff_ne_none.mp hsome),
        mergeCourse_publishedAt]
    have factB : m.publishedAt.isSome ↔
        ((s.get ⟨s.findIdx (fun c => c.id = id), hlt⟩).publishedAt.isSome ∨
          d.status = some .published) := by
      by_cases hdp : d.status = some Status.published
      · by_cases hpa : (s.get ⟨s.findIdx (fun c => c.id = id), hlt⟩).publishedAt = none
        · rw [hm, stampPublished_publishedAt_of_pub _ _ _ hdp
            (by rw [mergeCourse_publishedAt]; exact hpa)]
          simp [hdp]
        · have hsome : (s.get ⟨s.findIdx (fun c => c.id = id), hlt⟩).publishedAt.isSome :=
            Option.isSome_iff_ne_none.mpr hpa
          rw [factC hsome]
          simp only [List.get_eq_getElem] at hsome
          simp [hdp, hsome]
      · rw [hm, stampPublished_of_not_pub _ _ _ hdp, mergeCourse_publishedAt]
        simp [hdp]
    have factS : m.status = d.status.getD
        (s.get ⟨s.findIdx (fun c => c.id = id), hlt⟩).status := by
      rw [hm, stampPublished_status, mergeCourse_status]
    have factA : m.status = .published → m.publishedAt.isSome := by
      intro hms
      rw [factS] at hms
      rw [factB]
      cases hd : d.status with
      | none =>
        rw [hd] at hms
        simp only [Option.getD_none] at hms
        exact Or.inl (hp2₀ hms)
      | some st =>
        rw [hd] at hms
        simp only [Option.getD_some] at hms
        exact Or.inr (by rw [hms])
    refine ⟨hnd', fun c' hc' => ?_⟩
    have hsplit : c' ∈ s ∨ c' = m := by
      rw [hs1] at hc'
      exact List.mem_or_eq_of_mem_set hc'
    rcases hsplit with hc's | hc'm
    · obtain ⟨hiff, hp2⟩ := hInv.2 c' hc's
      refine ⟨⟨fun hs2 => List.mem_append_left _ (hiff.mp hs2), fun hmem => ?_⟩, hp2⟩
      rcases List.mem_append.mp hmem with hh | hpub1
      · exact hiff.mpr hh
      · obtain ⟨p, hpt, hppub, hpid⟩ := mem_publishedIds.mp hpub1
        have hpc : p = c' := id_injective_of_nodup hnd' hpt hc' hpid
        subst hpc
        rcases (by rw [hs1] at hpt; exact List.mem_or_eq_of_mem_set hpt :
            p ∈ s ∨ p = m) with hps | hpm
        · exact hp2 hppub
        · subst hpm
          exact factA hppub
    · rw [hc'm]
      refine ⟨⟨fun hs2 => ?_, fun hmem => ?_⟩, factA⟩
      · rcases factB.mp hs2 with hc₀some | hdp
        · exact List.mem_append_left _ (hmid ▸ hiff₀.mp hc₀some)
        · refine List.mem_append_right _ (mem_publishedIds.mpr ⟨m, hmem_m, ?_, rfl⟩)
          rw [factS, hdp]
          rfl
      · rcases List.mem_append.mp hmem with hh | hpub1
        · have hc₀some : (s.get ⟨s.findIdx (fun c => c.id = id), hlt⟩).publishedAt.isSome :=
            hiff₀.mpr (hmid ▸ hh)
          rw [factC hc₀some]
          exact hc₀some
        · obtain ⟨p, hpt, hppub, hpid⟩ := mem_publishedIds.mp hpub1
          have hpc : p = m := id_injective_of_nodup hnd' hpt hmem_m hpid
          rw [← hpc]
          exact (hpc ▸ factA) hppub

lemma pubInv_step_delete (id : String) (s : List Course) (hist : List String)
    (hInv : PubInv s hist) :
    PubInv (step s (.delete id))
      (hist ++ publishedIds (step s (.delete id))) := by
  rw [step_delete_eq]
  by_cases hb : s.findIdx (fun c => c.id = id) < s.length
  · rw [if_pos hb]
    refine pubInv_of_subset hInv (fun c hc => List.mem_of_mem_eraseIdx hc) ?_
    have hsub : (idsOf (s.eraseIdx (s.findIdx (fun c => c.id = id)))).Sublist (idsOf s) := by
      simp only [idsOf]
      exact List.Sublist.map _ (s.eraseIdx_sublist _)
    exact hsub.nodup hInv.1
  · rw [if_neg hb]
    exact pubInv_of_subset hInv (fun c hc => hc) hInv.1

lemma idsOf_step_subset (s : List Course) (op : Op) {i : String}
    (h : i ∈ idsOf (step s op)) : i ∈ idsOf s ∨ i ∈ createIdOp op := by
  cases op with
  | create data newId now =>
    rw [step_create_eq] at h
    by_cases hb : (data.title = "" || data.duration ≤ 0 : Bool) = true
    · rw [if_pos hb] at h; exact Or.inl h
    · rw [if_neg hb] at h
      simp only [idsOf, List.map_append, List.mem_append] at h
      rcases h with h | h
      · exact Or.inl h
      · right
        simpa [createIdOp] using h
  | update id d now =>
    cases hu : updateCourse id d now s with
    | error e => rw [step_update_of_error hu] at h; exact Or.inl h
    | ok p =>
      obtain ⟨m, s1⟩ := p
      rw [step_update_of_ok hu, idsOf_update_ok hu] at h
      exact Or.inl h
  | delete id =>
    rw [step_delete_eq] at h
    by_cases hb : s.findIdx (fun c => c.id = id) < s.length
    · rw [if_pos hb] at h
      have hsub : (idsOf (s.eraseIdx (s.findIdx (fun c => c.id = id)))).Sublist (idsOf s) := by
        simp only [idsOf]
        exact List.Sublist.map _ (s.eraseIdx_sublist _)
      exact Or.inl (hsub.mem h)
    · rw [if_neg hb] at h; exact Or.inl h

lemma pubInv_stepH (s : List Course) (hist : List String) (op : Op)
    (hInv : PubInv s hist)
    (hfr : ∀ i ∈ createIdOp op, i ∉ hist ∧ i ∉ idsOf s) :
    PubInv (stepH (s, hist) op).1 (stepH (s, hist) op).2 := by
  cases op with
  | create data newId now =>
    exact pubInv_step_create data newId now s hist hInv
      (hfr newId (by simp [createIdOp]))
  | update id d now => exact pubInv_step_update id d now s hist hInv
  | delete id => exact pubInv_step_delete id s hist hInv

lemma pubInv_foldl (ops : List Op) :
    ∀ (s : List Course) (hist : List String), PubInv s hist →
      (createIds ops).Nodup →
      (∀ i ∈ createIds ops, i ∉ hist ∧ i ∉ idsOf s) →
      PubInv (ops.foldl stepH (s, hist)).1 (ops.foldl stepH (s, hist)).2 := by
  induction ops with
  | nil => intro s hist hInv _ _; exact hInv
  | cons op ops ih =>
    intro s hist hInv hnd hfr
    rw [List.foldl_cons,
      show stepH (s, hist) op = (step s op, hist ++ publishedIds (step s op)) from rfl]
    have hndr : (createIds ops).Nodup := by
      rw [createIds_cons] at hnd
      exact hnd.of_append_right
    have hdisj : List.Disjoint (createIdOp op) (createIds ops) := by
      rw [createIds_cons] at hnd
      exact List.disjoint_of_nodup_append hnd
    apply ih
    · apply pubInv_stepH s hist op hInv
      intro i hi
      exact hfr i (by rw [createIds_cons]; exact List.mem_append_left _ hi)
    · exact hndr
    · intro i hi
      have h₀ := hfr i (by rw [createIds_cons]; exact List.mem_append_right _ hi)
      constructor
      · intro hmem
        rcases List.mem_append.mp hmem with hh | hp
        · exact h₀.1 hh
        · rcases idsOf_step_subset s op (publishedIds_subset_ids hp) with hx | hx
          · exact h₀.2 hx
          · exact hdisj hx hi
      · intro hmem
        rcases idsOf_step_subset s op hmem with hx | hx
        · exact h₀.2 hx
        · exact hdisj hx hi

lemma runH_fst (ops : List Op) : ∀ (s : List Course) (hist : List String),
    (ops.foldl stepH (s, hist)).1 = ops.foldl step s := by
  induction ops with
  | nil => intro s hist; rfl
  | cons op ops ih =>
    intro s hist
    rw [List.foldl_cons, List.foldl_cons,
      show stepH (s, hist) op = (step s op, hist ++ publishedIds (step s op)) from rfl]
    exact ih (step s op) _

/-- C2: a successful update that carries status published stamps
publishedAt with the current time when it was unset; a successful
update never changes an already-set publishedAt (the payload cannot
carry the field); and along any trace from empty storage with distinct
create ids, a stored course carries a publishedAt exactly when its id
has ever been observed in the published state. -/
theorem publishedAt_iff_ever_published :
    (∀ (s : List Course) (c : Course) (d : UpdateData) (now : String) (m : Course)
        (s' : List Course), (idsOf s).Nodup → c ∈ s →
        updateCourse c.id d now s = .ok (m, s') →
        (c.publishedAt = none → d.status = some .published → m.publishedAt = some now) ∧
        (c.publishedAt ≠ none → m.publishedAt = c.publishedAt)) ∧
    (∀ ops : List Op, (createIds ops).Nodup →
      ∀ c ∈ (runH ops).1, (c.publishedAt.isSome ↔ c.id ∈ (runH ops).2)) := by
  constructor
  · intro s c d now m s' hnd hc h
    obtain ⟨hlt, harch, hidt, hm, hs'⟩ := updateCourse_ok_elim h
    have hgot : s.get ⟨s.findIdx (fun x => x.id = c.id), hlt⟩ = c :=
      id_injective_of_nodup hnd (List.get_mem s _ hlt) hc (findIdx_id_get hlt)
    constructor
    · intro hpa hdp
      rw [hm, hgot]
      exact stampPublished_publishedAt_of_pub _ _ _ hdp
        (by rw [mergeCourse_publishedAt]; exact hpa)
    · intro hpa
      rw [hm, hgot, stampPublished_publishedAt_of_some _ _ _
        (by rw [mergeCourse_publishedAt]; exact hpa), mergeCourse_publishedAt]
  · intro ops hnd c hc
    have hbase : PubInv [] [] := ⟨by simp [idsOf], by simp⟩
    have hfr : ∀ i ∈ createIds ops, i ∉ ([] : List String) ∧ i ∉ idsOf [] := by
      intro i hi
      exact ⟨by simp, by simp [idsOf]⟩
    have := (pubInv_foldl ops [] [] hbase hnd hfr).2 c hc
    exact this.1

/-- Trace used by the C2 witness: create, publish, then archive. -/
def wOps : List Op :=
  [.create ⟨"T", none, 60⟩ "a" "t0",
   .update "a" ⟨none, none, none, some .published⟩ "t1",
   .update "a" ⟨none, none, none, some .archived⟩ "t2"]

/-- Witness for C2: the stamping clause at a concrete draft course and
the trace-level equivalence on the create/publish/archive trace, whose
surviving course keeps publishedAt = some "t1" after archiving. -/
theorem publishedAt_iff_ever_published_witness :
    (⟨"a", "T", none, 60, .published, "t0", some "t1"⟩ : Course).publishedAt = some "t1" ∧
    ((⟨"a", "T", none, 60, .archived, "t0", some "t1"⟩ : Course).publishedAt.isSome ↔
      "a" ∈ (runH wOps).2) :=
  ⟨(publishedAt_iff_ever_published.1
      [⟨"a", "T", none, 60, .draft, "t0", none⟩]
      ⟨"a", "T", none, 60, .draft, "t0", none⟩
      ⟨none, none, none, some .published⟩ "t1"
      ⟨"a", "T", none, 60, .published, "t0", some "t1"⟩
      [⟨"a", "T", none, 60, .published, "t0", some "t1"⟩]
      (by decide) (by decide) (by rfl)).1 rfl rfl,
   publishedAt_iff_ever_published.2 wOps (by decide)
     ⟨"a", "T", none, 60, .archived, "t0", some "t1"⟩ (by decide)⟩

lemma createIds_append (l₁ l₂ : List Op) :
    createIds (l₁ ++ l₂) = createIds l₁ ++ createIds l₂ := by
  induction l₁ with
  | nil => rfl
  | cons op ops ih =>
    rw [List.cons_append, createIds_cons, createIds_cons, ih, List.append_assoc]

/-- Once a course id is archived, every record with that id stays
archived. -/
def ArchInv (cid : String) (s : List Course) : Prop :=
  ∀ x ∈ s, x.id = cid → x.status = .archived

lemma archInv_step (cid : String) (s : List Course) (op : Op)
    (hI : ArchInv cid s) (hop : cid ∉ createIdOp op) : ArchInv cid (step s op) := by
  cases op with
  | create data newId now =>
    rw [step_create_eq]
    by_cases hb : (data.title = "" || data.duration ≤ 0 : Bool) = true
    · rw [if_pos hb]; exact hI
    · rw [if_neg hb]
      intro x hx hxid
      rcases List.mem_append.mp hx with hxs | hxnew
      · exact hI x hxs hxid
      · exfalso
        have hx' : x = ⟨newId, data.title, data.description, data.duration,
            .draft, now, none⟩ := List.mem_singleton.mp hxnew
        apply hop
        simp only [createIdOp, List.mem_singleton]
        rw [← hxid, hx']
  | update id d now =>
    cases h : updateCourse id d now s with
    | error e => rw [step_update_of_error h]; exact hI
    | ok p =>
      obtain ⟨m, s1⟩ := p
      rw [step_update_of_ok h]
      obtain ⟨hlt, harch, hidt, hm, hs1⟩ := updateCourse_ok_elim h
      have hmid : m.id = (s.get ⟨s.findIdx (fun c => c.id = id), hlt⟩).id := by
        rw [hm, stampPublished_id, mergeCourse_id]
      intro x hx hxid
      rw [hs1] at hx
      rcases List.mem_or_eq_of_mem_set hx with hxs | hxm
      · exact hI x hxs hxid
      · exfalso
        apply harch
        apply hI _ (List.get_mem s _ hlt)
        rw [← hmid, ← hxm]
        exact hxid
  | delete id =>
    rw [step_delete_eq]
    by_cases hb : s.findIdx (fun c => c.id = id) < s.length
    · rw [if_pos hb]
      intro x hx hxid
      exact hI x (List.mem_of_mem_eraseIdx hx) hxid
    · rw [if_neg hb]; exact hI

lemma archInv_foldl (ops : List Op) : ∀ (s : List Course) (cid : String),
    ArchInv cid s → cid ∉ createIds ops → ArchInv cid (ops.foldl step s) := by
  induction ops with
  | nil => intro s cid hI _; exact hI
  | cons op ops ih =>
    intro s cid hI hni
    rw [List.foldl_cons]
    apply ih
    · exact archInv_step cid s op hI
        (fun hmem => hni (by rw [createIds_cons]; exact List.mem_append_left _ hmem))
    · exact fun hmem => hni (by rw [createIds_cons]; exact List.mem_append_right _ hmem)

lemma foldl_ids_subset (ops : List Op) : ∀ (s : List Course) (c : Course),
    c ∈ ops.foldl step s → c.id ∈ idsOf s ∨ c.id ∈ createIds ops := by
  induction ops with
  | nil => intro s c hc; exact Or.inl (List.mem_map.mpr ⟨c, hc, rfl⟩)
  | cons op ops ih =>
    intro s c hc
    rw [List.foldl_cons] at hc
    rcases ih (step s op) c hc with h | h
    · rcases idsOf_step_subset s op h with h' | h'
      · exact Or.inl h'
      · exact Or.inr (by rw [createIds_cons]; exact List.mem_append_left _ h')
    · exact Or.inr (by rw [createIds_cons]; exact List.mem_append_right _ h)

lemma run_idsOf_nodup (ops : List Op) (hnd : (createIds ops).Nodup) :
    (idsOf (run ops)).Nodup := by
  have h := (pubInv_foldl ops [] [] ⟨by simp [idsOf], by simp⟩ hnd
    (fun i hi => ⟨by simp, by simp [idsOf]⟩)).1
  rw [runH_fst] at h
  exact h

/-- Trace refuting the no-reverse-transition claim: create then
publish. -/
def cexOps2 : List Op :=
  [.create ⟨"T", none, 60⟩ "a" "t0",
   .update "a" ⟨none, none, none, some .published⟩ "t1"]

/-- Counterexample to C3 as stated: after create and publish the
stored course is published, and the further update carrying status
draft succeeds, returning the course to draft — the code never guards
against the published → draft reverse transition. -/
theorem published_returns_to_draft_cex :
    (run cexOps2).map (fun c => c.status) = [.published] ∧
    (run (cexOps2 ++ [.update "a" ⟨none, none, none, some .draft⟩ "t2"])).map
      (fun c => c.status) = [.draft] := by
  decide

/-- C3 amended: the archived half of the state machine does hold.  In
any trace with distinct create ids, once a stored course is archived,
every record with its id in every later state is still archived (every
update aimed at it fails, and nothing revives it). -/
theorem archived_terminal (ops ops' : List Op)
    (hnd : (createIds (ops ++ ops')).Nodup)
    (c : Course) (hc : c ∈ run ops) (ha : c.status = .archived) :
    ∀ c' ∈ run (ops ++ ops'), c'.id = c.id → c'.status = .archived := by
  have hndl : (createIds ops).Nodup := by
    rw [createIds_append] at hnd
    exact hnd.of_append_left
  have hdisj : List.Disjoint (createIds ops) (createIds ops') := by
    rw [createIds_append] at hnd
    exact List.disjoint_of_nodup_append hnd
  have hcid : c.id ∈ createIds ops := by
    rcases foldl_ids_subset ops [] c hc with h | h
    · simp [idsOf] at h
    · exact h
  have hni : c.id ∉ createIds ops' := fun hmem => hdisj hcid hmem
  have hInit : ArchInv c.id (run ops) := by
    intro x hx hxid
    have hxc : x = c := id_injective_of_nodup (run_idsOf_nodup ops hndl) hx hc hxid
    rw [hxc]
    exact ha
  have hrun : run (ops ++ ops') = ops'.foldl step (run ops) := by
    rw [run, run, List.foldl_append]
  intro c' hc' hid
  rw [hrun] at hc'
  exact archInv_foldl ops' (run ops) c.id hInit hni c' hc' hid

/-- Archiving trace for the C3 witness. -/
def wOps3 : List Op :=
  [.create ⟨"T", none, 60⟩ "b" "t0",
   .update "b" ⟨none, none, none, some .archived⟩ "t1"]

/-- Later operations aimed at the archived course for the C3 witness. -/
def wOps3' : List Op :=
  [.update "b" ⟨none, none, none, some .draft⟩ "t2", .delete "zz"]

/-- Witness for the amended C3 on a concrete trace: the archived course
is still archived after a draft-reverting update and an unrelated
delete were attempted. -/
theorem archived_terminal_witness :
    (⟨"b", "T", none, 60, .archived, "t0", none⟩ : Course).status = .archived :=
  archived_terminal wOps3 wOps3' (by decide)
    ⟨"b", "T", none, 60, .archived, "t0", none⟩ (by decide) (by decide)
    ⟨"b", "T", none, 60, .archived, "t0", none⟩ (by decide) (by decide)

/-- Counterexample to C4 as stated: updateCourse itself never
validates fields.  An update writing an empty title to a non-archived
stored course succeeds and stores the empty title, and an update
writing duration 0 succeeds and stores it — no per-field error, and the
stored collection does change. -/
theorem update_no_field_validation_cex :
    updateCourse "a" ⟨some "", none, none, none⟩ "t1"
        [⟨"a", "T", none, 60, .draft, "t0", none⟩] =
      .ok (⟨"a", "", none, 60, .draft, "t0", none⟩,
        [⟨"a", "", none, 60, .draft, "t0", none⟩]) ∧
    updateCourse "a" ⟨none, none, some 0, none⟩ "t1"
        [⟨"a", "T", none, 60, .draft, "t0", none⟩] =
      .ok (⟨"a", "T", none, 0, .draft, "t0", none⟩,
        [⟨"a", "T", none, 0, .draft, "t0", none⟩]) := by
  constructor <;> rfl

/-- C4 amended: the API update applies no field validation — on any
non-archived target it succeeds and stores whatever title/duration the
payload carries; the per-field validation lives in the form layer,
whose register rules report "Title is required" for an empty title and
"Must be greater than 0" for a duration below 1, and whose submit gate
only lets validated data through to the update call. -/
theorem field_validation_in_form_layer :
    (∀ (s : List Course) (c : Course) (d : UpdateData) (now : String),
      (idsOf s).Nodup → c ∈ s → c.status ≠ .archived →
      ∃ m s', updateCourse c.id d now s = .ok (m, s') ∧
        m.title = d.title.getD c.title ∧ m.duration = d.duration.getD c.duration) ∧
    (∀ t : String, t = "" → titleFieldError t = some "Title is required") ∧
    (∀ v : Int, v < 1 → durationFieldError (some v) = some "Must be greater than 0") ∧
    (∀ (title descr : String) (dur : Option Int),
      formSubmitAllowed title descr dur = true →
      title ≠ "" ∧ ∀ v, dur = some v → 1 ≤ v) := by
  refine ⟨?_, ?_, ?_, ?_⟩
  · intro s c d now hnd hc hna
    have hlt : s.findIdx (fun x => x.id = c.id) < s.length := findIdx_id_lt hc
    have hgot : s.get ⟨s.findIdx (fun x => x.id = c.id), hlt⟩ = c :=
      id_injective_of_nodup hnd (List.get_mem s _ hlt) hc (findIdx_id_get hlt)
    refine ⟨stampPublished d now (mergeCourse c d),
      s.set (s.findIdx (fun x => x.id = c.id)) (stampPublished d now (mergeCourse c d)),
      ?_, ?_, ?_⟩
    · unfold updateCourse
      rw [dif_pos hlt]
      simp only [List.get_eq_getElem] at hgot
      simp [hgot, hna]
    · rw [stampPublished_title]; rfl
    · rw [stampPublished_duration]; rfl
  · intro t ht
    rw [ht]
    rfl
  · intro v hv
    simp only [durationFieldError]
    rw [if_pos hv]
  · intro title descr dur h
    unfold formSubmitAllowed at h
    simp only [Bool.and_eq_true, Option.isNone_iff_eq_none] at h
    refine ⟨fun ht => ?_, fun v hv => ?_⟩
    · have := h.1.1
      rw [titleFieldError, if_pos ht] at this
      exact Option.some_ne_none _ this
    · have := h.2
      rw [hv] at this
      simp only [durationFieldError] at this
      by_contra hlt
      rw [if_pos (by omega)] at this
      exact Option.some_ne_none _ this

/-- Witness for the amended C4: the unvalidated API update at an
empty-title payload, and the form-layer rules at concrete inputs. -/
theorem field_validation_in_form_layer_witness :
    (∃ m s', updateCourse "a" ⟨some "", none, none, none⟩ "t1"
        [⟨"a", "T", none, 60, .draft, "t0", none⟩] = .ok (m, s') ∧
        m.title = "" ∧ m.duration = 60) ∧
    titleFieldError "" = some "Title is required" ∧
    durationFieldError (some 0) = some "Must be greater than 0" ∧
    ("T" ≠ "" ∧ ∀ v : Int, (some 60 : Option Int) = some v → 1 ≤ v) := by
  refine ⟨?_, ?_, ?_, ?_⟩
  · obtain ⟨m, s', h1, h2, h3⟩ := field_validation_in_form_layer.1
      [⟨"a", "T", none, 60, .draft, "t0", none⟩]
      ⟨"a", "T", none, 60, .draft, "t0", none⟩
      ⟨some "", none, none, none⟩ "t1" (by decide) (by decide) (by decide)
    exact ⟨m, s', h1, by simpa using h2, by simpa using h3⟩
  · exact field_validation_in_form_layer.2.1 "" rfl
  · exact field_validation_in_form_layer.2.2.1 0 (by decide)
  · exact field_validation_in_form_layer.2.2.2 "T" "" (some 60) (by decide)

/-- Course used by the C5 duration-filter counterexample. -/
def c5course : Course := ⟨"a", "A", none, 120, .draft, "2024-01-01", none⟩

/-- Filter configuration whose duration minimum is unparseable text. -/
def c5f : FilterState := ⟨"all", "", "createdAt", "desc", "grid", "", "", "abc", ""⟩

/-- The same configuration with the bad bound removed. -/
def c5fNoMin : FilterState := ⟨"all", "", "createdAt", "desc", "grid", "", "", "", ""⟩

/-- Counterexample to C5 as stated: with the unparseable bound "abc"
the derived list is empty, while removing the bound yields the course —
so the unparseable bound is NOT treated as absent. -/
theorem unparseable_bound_not_ignored_cex :
    parseIntJS "abc" = none ∧
    filteredCourses c5f [c5course] = [] ∧
    filteredCourses c5fNoMin [c5course] = [c5course] := by
  decide

/-- C5 amended: the engine indeed raises no error on an unparseable
duration bound (the model is a total function), but the bound is not
ignored: parseInt yields NaN, every NaN comparison is false, so the
non-empty unparseable bound filters out every course and the derived
list is empty. -/
theorem unparseable_bound_empties_list (f : FilterState) (courses : List Course)
    (h : (f.durationMin ≠ "" ∧ parseIntJS f.durationMin = none) ∨
         (f.durationMax ≠ "" ∧ parseIntJS f.durationMax = none)) :
    filteredCourses f courses = [] := by
  unfold filteredCourses
  rcases h with ⟨hne, hp⟩ | ⟨hne, hp⟩
  · simp [hne, hp, jsGEInt, sortJS]
  · simp [hne, hp, jsLEInt, sortJS]

/-- Witness for the amended C5 at the concrete "abc" bound. -/
theorem unparseable_bound_empties_list_witness :
    filteredCourses c5f [c5course] = [] :=
  unparseable_bound_empties_list c5f [c5course] (Or.inl ⟨by decide, by decide⟩)

/-- Published course hidden by the draft filter in the C6 scenario. -/
def b6 : Course := ⟨"b", "B", none, 60, .published, "2024-01-02", some "2024-01-03"⟩

/-- First visible draft course in the C6 scenario. -/
def a6 : Course := ⟨"a", "A", none, 60, .draft, "2024-01-01", none⟩

/-- Second visible draft course in the C6 scenario. -/
def c6 : Course := ⟨"c", "C", none, 60, .draft, "2024-01-03", none⟩

/-- Drag view filtered to drafts. -/
def f6 : FilterState := ⟨"draft", "", "createdAt", "desc", "drag", "", "", "", ""⟩

/-- C6 failing input, evaluated: with the authoritative collection
[b6, a6, c6] and the draft filter, the drag view shows [a6, c6].
Dragging c6 onto a6 asks for the visible order [c6, a6], but the
handler passes the filtered-list indices (1, 0) to the context reorder,
which splices the FULL collection: the hidden published course b6 moves
(from before a6 to after it) while the next drag render still shows
[a6, c6] — neither conjunct of the claim holds. -/
theorem drag_reorder_filtered_bug :
    filteredCourses f6 [b6, a6, c6] = [a6, c6] ∧
    dragReorder f6 [b6, a6, c6] "c" "a" = [some a6, some b6, some c6] ∧
    filteredCourses f6 [a6, b6, c6] = [a6, c6] ∧
    ([a6, c6] : List Course) ≠ [c6, a6] := by
  decide

/-! ### Stability of the modelled Array.prototype.sort -/

lemma mem_insertCmp {cmp : α → α → Int} {x a : α} {ys : List α} :
    a ∈ insertCmp cmp x ys ↔ a = x ∨ a ∈ ys := by
  induction ys with
  | nil => simp [insertCmp]
  | cons y ys ih =>
    unfold insertCmp
    by_cases h : cmp x y ≤ 0
    · rw [if_pos h]
      simp [List.mem_cons]
    · rw [if_neg h]
      simp only [List.mem_cons, ih]
      tauto

lemma mem_sortJS {cmp : α → α → Int} {l : List α} {a : α} :
    a ∈ sortJS cmp l ↔ a ∈ l := by
  induction l with
  | nil => simp [sortJS]
  | cons x xs ih =>
    unfold sortJS
    rw [mem_insertCmp]
    simp [ih, List.mem_cons]

lemma filter_insertCmp_neg {cmp : α → α → Int} {p : α → Bool} {x : α}
    (hx : p x = false) (ys : List α) :
    (insertCmp cmp x ys).filter p = ys.filter p := by
  induction ys with
  | nil => simp [insertCmp, hx]
  | cons y ys ih =>
    unfold insertCmp
    by_cases h : cmp x y ≤ 0
    · rw [if_pos h]
      simp [List.filter_cons, hx]
    · rw [if_neg h]
      rw [List.filter_cons, List.filter_cons, ih]

lemma filter_insertCmp_pos {cmp : α → α → Int} {p : α → Bool} {x : α}
    (hx : p x = true) :
    ∀ ys : List α, (∀ y ∈ ys, 0 < cmp x y → p y = false) →
      (insertCmp cmp x ys).filter p = x :: ys.filter p := by
  intro ys
  induction ys with
  | nil =>
    intro _
    simp [insertCmp, hx]
  | cons y ys ih =>
    intro hskip
    unfold insertCmp
    by_cases h : cmp x y ≤ 0
    · rw [if_pos h]
      simp [List.filter_cons, hx]
    · rw [if_neg h]
      have hy : p y = false := hskip y (List.mem_cons_self y ys) (lt_of_not_le h)
      rw [List.filter_cons, List.filter_cons, hy,
        ih (fun z hz hc => hskip z (List.mem_cons_of_mem y hz) hc)]
      simp

/-- Stability of the modelled stable sort, characterised through
filters: for a comparator that returns 0 exactly on equal keys, the
subsequence of elements with any fixed key is untouched by sorting. -/
lemma sortJS_stable {β : Type} [DecidableEq β] (cmp : α → α → Int) (key : α → β)
    (l : List α) (hkey : ∀ a ∈ l, ∀ b ∈ l, (cmp a b = 0 ↔ key a = key b)) (k : β) :
    (sortJS cmp l).filter (fun c => key c = k) = l.filter (fun c => key c = k) := by
  induction l with
  | nil => rfl
  | cons x xs ih =>
    unfold sortJS
    have hkey' : ∀ a ∈ xs, ∀ b ∈ xs, (cmp a b = 0 ↔ key a = key b) :=
      fun a ha b hb =>
        hkey a (List.mem_cons_of_mem x ha) b (List.mem_cons_of_mem x hb)
    by_cases hx : key x = k
    · have hxp : decide (key x = k) = true := by simp [hx]
      have hskip : ∀ y ∈ sortJS cmp xs, 0 < cmp x y →
          decide (key y = k) = false := by
        intro y hy hcmp
        have hyl : y ∈ xs := mem_sortJS.mp hy
        have hne : key x ≠ key y := by
          intro he
          have h0 : cmp x y = 0 :=
            (hkey x (List.mem_cons_self x xs) y (List.mem_cons_of_mem x hyl)).mpr he
          omega
        simp only [decide_eq_false_iff_not]
        intro hyk
        exact hne (by rw [hx, hyk])
      rw [@filter_insertCmp_pos _ cmp (fun c => decide (key c = k)) x hxp
          (sortJS cmp xs) hskip, ih hkey', List.filter_cons, if_pos hxp]
    · have hxp : decide (key x = k) = false := by simp [hx]
      rw [@filter_insertCmp_neg _ cmp (fun c => decide (key c = k)) x hxp
          (sortJS cmp xs), ih hkey', List.filter_cons]
      simp [hx]

/-- C7: the ordered-mode sort is stable for both sort directions.  For
sortBy duration or title, courses with equal sort keys keep their
relative input order (their filtered subsequence is unchanged); for
sortBy createdAt the same holds whenever the createdAt strings parse
(so their comparator is the instant difference). -/
theorem sort_stable (f : FilterState) (l : List Course) :
    (f.sortBy = "duration" →
      ∀ k : Int, (sortJS (sortCmp f) l).filter (fun c => c.duration = k) =
        l.filter (fun c => c.duration = k)) ∧
    (f.sortBy = "title" →
      ∀ k : String, (sortJS (sortCmp f) l).filter (fun c => c.title = k) =
        l.filter (fun c => c.title = k)) ∧
    (f.sortBy = "createdAt" → (∀ c ∈ l, (getTimeJS c.createdAt).isSome) →
      ∀ k : Option Int, (sortJS (sortCmp f) l).filter
          (fun c => getTimeJS c.createdAt = k) =
        l.filter (fun c => getTimeJS c.createdAt = k)) := by
  refine ⟨?_, ?_, ?_⟩
  · intro hs k
    apply sortJS_stable (sortCmp f) (fun c => c.duration) l
    intro a _ b _
    simp only [sortCmp, hs, String.reduceEq, reduceIte]
    split <;> omega
  · intro hs k
    apply sortJS_stable (sortCmp f) (fun c => c.title) l
    intro a _ b _
    simp only [sortCmp, hs, String.reduceEq, reduceIte]
    unfold strCmp
    by_cases ho : f.sortOrder = "asc"
    · rw [if_pos ho]
      split_ifs with h1 h2 <;> simp [h1]
    · rw [if_neg ho, neg_eq_zero]
      split_ifs with h1 h2 <;> simp [h1]
  · intro hs hparse k
    apply sortJS_stable (sortCmp f) (fun c => getTimeJS c.createdAt) l
    intro a ha b hb
    obtain ⟨x, hx⟩ := Option.isSome_iff_exists.mp (hparse a ha)
    obtain ⟨y, hy⟩ := Option.isSome_iff_exists.mp (hparse b hb)
    simp only [sortCmp, hs, String.reduceEq, reduceIte]
    rw [hx, hy]
    simp only [jsSubTime, Option.some_inj]
    split <;> omega

/-- Duration sort configuration for the C7 witness. -/
def f7 : FilterState := ⟨"all", "", "duration", "desc", "grid", "", "", "", ""⟩

/-- Witness for C7: the three equal-duration courses of the sample
keep their relative order through the descending duration sort. -/
theorem sort_stable_witness :
    (sortJS (sortCmp f7) [b6, a6, c6]).filter (fun c => c.duration = 60) =
      ([b6, a6, c6] : List Course).filter (fun c => c.duration = 60) :=
  (sort_stable f7 [b6, a6, c6]).1 rfl 60

/-! ### Reorder robustness -/

lemma clampStart_le (i : Int) (len : Nat) : clampStart i len ≤ len := by
  unfold clampStart
  split <;> omega

lemma filterMap_id_map_some (l : List Course) : (l.map some).filterMap id = l := by
  induction l with
  | nil => rfl
  | cons x xs ih => simp [List.filterMap_cons, ih]

lemma filterMap_spliceInsert (l : List Course) (e : Int) (v : Course) :
    (spliceInsert (l.map some) e (some v)).filterMap id =
      l.take (clampStart e l.length) ++ v :: l.drop (clampStart e l.length) ∧
    (spliceInsert (l.map some) e (some v)).length = l.length + 1 := by
  have hlen : (l.map some).length = l.length := List.length_map l some
  have hsp : spliceInsert (l.map some) e (some v) =
      (l.map some).take (clampStart e l.length) ++
        some v :: (l.map some).drop (clampStart e l.length) := by
    unfold spliceInsert
    rw [hlen]
  rw [hsp]
  constructor
  · rw [← List.map_take, ← List.map_drop, List.filterMap_append, List.filterMap_cons]
    simp only [id]
    rw [filterMap_id_map_some, filterMap_id_map_some]
  · have hb : clampStart e l.length ≤ l.length := clampStart_le e l.length
    simp only [List.length_append, List.length_cons, List.length_take,
      List.length_drop, List.length_map]
    omega

lemma perm_take_cons_drop (n : Nat) (x : α) (l : List α) :
    (l.take n ++ x :: l.drop n).Perm (x :: l) := by
  have h1 : (l.take n ++ x :: l.drop n).Perm (x :: (l.take n ++ l.drop n)) :=
    List.perm_middle
  rw [List.take_append_drop] at h1
  exact h1

/-- Counterexample to C8 as stated: with a 2-element collection,
reorder with the out-of-range fromIndex 5 removes nothing, captures
undefined as the removed element, and splices that undefined back in:
the resulting array has length 3 and an undefined hole — the list is
corrupted, not left with the same records. -/
theorem reorder_out_of_range_corrupts_cex :
    reorderJS [wA, wB] 5 0 = [none, some wA, some wB] ∧
    (reorderJS [wA, wB] 5 0).length = 3 := by
  decide

/-- C8 amended: whenever the (JS-clamped) fromIndex actually refers to
an element — which covers every negative fromIndex on a non-empty list
and every toIndex whatsoever — the reorder result carries exactly the
original course records: same length, and the records are a
permutation of the input.  Corruption happens exactly in the remaining
case, when the clamped fromIndex falls past the last element. -/
theorem reorder_preserves_courses (l : List Course) (s e : Int)
    (h : clampStart s l.length < l.length) :
    ((reorderJS l s e).filterMap id).Perm l ∧
    (reorderJS l s e).length = l.length := by
  have hget : l.get? (clampStart s l.length) =
      some (l.get ⟨clampStart s l.length, h⟩) := by
    rw [List.get?_eq_getElem?, List.getElem?_eq_getElem h]
    rfl
  have hre0 : reorderJS l s e =
      spliceInsert ((l.take (clampStart s l.length) ++
          l.drop (clampStart s l.length + 1)).map some) e
        (l.get? (clampStart s l.length)) := rfl
  have hre : reorderJS l s e =
      spliceInsert ((l.take (clampStart s l.length) ++
          l.drop (clampStart s l.length + 1)).map some) e
        (some (l.get ⟨clampStart s l.length, h⟩)) := by
    rw [hre0, hget]
  obtain ⟨hfm, hlen⟩ := filterMap_spliceInsert
    (l.take (clampStart s l.length) ++ l.drop (clampStart s l.length + 1)) e
    (l.get ⟨clampStart s l.length, h⟩)
  have hvl : ((l.get ⟨clampStart s l.length, h⟩) ::
      (l.take (clampStart s l.length) ++ l.drop (clampStart s l.length + 1))).Perm l := by
    have hstep : l.take (clampStart s l.length) ++
        (l.get ⟨clampStart s l.length, h⟩) :: l.drop (clampStart s l.length + 1) = l := by
      conv_rhs => rw [← List.take_append_drop (clampStart s l.length) l,
        List.drop_eq_getElem_cons h]
      rfl
    have h1 : ((l.get ⟨clampStart s l.length, h⟩) ::
        (l.take (clampStart s l.length) ++ l.drop (clampStart s l.length + 1))).Perm
          (l.take (clampStart s l.length) ++
            (l.get ⟨clampStart s l.length, h⟩) :: l.drop (clampStart s l.length + 1)) :=
      List.perm_middle.symm
    rw [hstep] at h1
    exact h1
  constructor
  · rw [hre, hfm]
    exact (perm_take_cons_drop _ _ _).trans hvl
  · rw [hre, hlen]
    simp only [List.length_append, List.length_take, List.length_drop]
    omega

/-- Witness for the amended C8: a negative fromIndex and an
out-of-range toIndex still preserve the two stored records. -/
theorem reorder_preserves_courses_witness :
    ((reorderJS [wA, wB] (-1) 5).filterMap id).Perm [wA, wB] ∧
    (reorderJS [wA, wB] (-1) 5).length = ([wA, wB] : List Course).length :=
  reorder_preserves_courses [wA, wB] (-1) 5 (by decide)

end CourseMgmt
